import Mathlib

/-!
Shallow embedding of the `@toba/node-tools` in-memory cache
(`src/cache.ts`, `compress-cache`, and the `byteSize`/`gzip`/`unzip`
helpers from `utility.ts`), together with theorems checking the
natural-language specification against it.

JavaScript `number` values that hold byte counts or timestamps are
modelled as `Int` (the `-1` sentinel of `byteSize` needs a signed
type); a JS `Map` is modelled as an association list in insertion
order, matching the iteration order of `Map.prototype.values()`.
-/

namespace NodeTools

/-- Dynamic values as far as the cache library inspects them:
`byteSize` (utility.ts) distinguishes strings, `Buffer`s and
everything else, and `is.value` distinguishes `null`/`undefined`.
A `Buffer` is a list of bytes. -/
inductive Val where
  | str (s : String)
  | buf (b : List Nat)
  | other
  | nullv
  deriving DecidableEq, Repr

/-- `is.value(x)`: not `undefined` and not `null`. -/
def isValue : Val → Bool
  | Val.nullv => false
  | _ => true

/-- `is.empty(x)`: `undefined`, `null` or the empty string. -/
def isEmptyVal : Val → Bool
  | Val.nullv => true
  | Val.str s => s == ""
  | _ => false

/-- utility.ts `byteSize`: length of a string or `Buffer`, `-1` for
anything else (the "unmeasurable" sentinel). -/
def byteSize : Val → Int
  | Val.str s => s.length
  | Val.buf b => b.length
  | _ => -1

/-- cache.ts `CacheItem<T>`. -/
structure CacheItem where
  key : String
  /-- Timestamp (`new Date().getTime()` at `add`). -/
  added : Int
  value : Val
  /-- Byte size of value. -/
  size : Int
  deriving DecidableEq, Repr

/-- cache.ts `CachePolicy`; after `merge(defaultPolicy, _)` every
field is present, so the fields are plain integers here. -/
structure CachePolicy where
  maxItems : Int
  maxAge : Int
  maxBytes : Int
  deriving DecidableEq, Repr

def defaultPolicy : CachePolicy := ⟨0, 0, 0⟩

/-- `Partial<CachePolicy>`: the argument of the constructor and of
`updatePolicy`; omitted fields are `none`. -/
structure PolicyInput where
  maxItems : Option Int := none
  maxAge : Option Int := none
  maxBytes : Option Int := none
  deriving DecidableEq, Repr

/-- `merge(defaultPolicy, policy)`: fields given by `policy` override
the defaults. -/
def mergePolicy (base : CachePolicy) (p : PolicyInput) : CachePolicy :=
  ⟨p.maxItems.getD base.maxItems,
   p.maxAge.getD base.maxAge,
   p.maxBytes.getD base.maxBytes⟩

/-- cache.ts `EventType` together with its payload (`ItemsEvicted`
carries the list of removed keys, `KeyNotFound` the missing key). -/
inductive CacheEvent where
  | itemsEvicted (keys : List String)
  | keyNotFound (key : String)
  deriving DecidableEq, Repr

/-! ### `Map<string, CacheItem>` operations, in insertion order -/

/-- `items.has(key)`. -/
def mapHas (items : List CacheItem) (key : String) : Bool :=
  items.any (fun i => i.key == key)

/-- `items.get(key)`: `undefined` is `none`. -/
def mapGet (items : List CacheItem) (key : String) : Option CacheItem :=
  items.find? (fun i => i.key == key)

/-- `items.set(key, it)`: replaces in place when the key is present
(JS `Map.set` keeps the original insertion position), appends
otherwise. -/
def mapSet (items : List CacheItem) (it : CacheItem) : List CacheItem :=
  if mapHas items it.key then
    items.map (fun j => if j.key == it.key then it else j)
  else
    items ++ [it]

/-- `items.delete(key)`. -/
def mapDeleteKey (items : List CacheItem) (key : String) : List CacheItem :=
  items.filter (fun i => i.key != key)

/-- cache.ts `totalSize`: total size of the items whose key is not in
`except` (`except.indexOf(i.key) < 0`), accumulated left to right. -/
def totalSize (items : List CacheItem) (except : List String) : Int :=
  (items.filter (fun i => !except.contains i.key)).foldl
    (fun total i => total + i.size) 0

/-- cache.ts `Cache<T>` state. The event listeners are not part of
the state; operations instead return the list of events they emit.
`evictTimer` holds the deadline of the pending debounced prune
(`none` when no timer is armed). -/
structure Cache where
  items : List CacheItem
  policy : CachePolicy
  canMeasureSize : Bool
  evictTimer : Option Int
  deriving Repr

/-- `new Cache(policy)`. -/
def Cache.mk0 (p : PolicyInput) : Cache :=
  ⟨[], mergePolicy defaultPolicy p, true, none⟩

/-- `Cache.length`. -/
def Cache.length (c : Cache) : Nat := c.items.length

/-- `Cache.size`: total byte size, or `-1` if size cannot be
measured. -/
def Cache.size (c : Cache) : Int :=
  if c.canMeasureSize then totalSize c.items [] else -1

/-- `is.empty` applied to `items.get(key)`, a `CacheItem` or
`undefined`: an object is never `undefined`, `null` or `""`, so only
the `undefined` case is empty. -/
def isEmptyItem : Option CacheItem → Bool
  | none => true
  | some _ => false

/-- `Cache.contains(key, allowEmpty = false)`:
`items.has(key) && (allowEmpty || !is.empty(items.get(key)))`. -/
def Cache.contains (c : Cache) (key : String) (allowEmpty : Bool) : Bool :=
  mapHas c.items key && (allowEmpty || !isEmptyItem (mapGet c.items key))

/-- `Cache.schedulePrune`: cancel any pending timer and arm a new one
10 time units from now. -/
def Cache.schedulePrune (now : Int) (c : Cache) : Cache :=
  { c with evictTimer := some (now + 10) }

/-- `Cache.add(key, value)` at time `now`. Mirrors cache.ts lines
93-113: values failing `is.value` are ignored; while measurable the
size comes from `byteSize`, and a `-1` result permanently flips
`canMeasureSize` and records size `0`. -/
def Cache.add (now : Int) (c : Cache) (key : String) (value : Val) : Cache :=
  let c' :=
    if isValue value then
      let measured :=
        if c.canMeasureSize then
          let size := byteSize value
          if size == -1 then (false, (0 : Int)) else (true, size)
        else (c.canMeasureSize, (0 : Int))
      { c with
        items := mapSet c.items ⟨key, now, value, measured.2⟩,
        canMeasureSize := measured.1 }
    else c
  Cache.schedulePrune now c'

/-- `Cache.get(key, silent = false)`: the returned value (`none` for
JS `null`) and the list of emitted events. -/
def Cache.get (c : Cache) (key : String) (silent : Bool) :
    Option Val × List CacheEvent :=
  if mapHas c.items key then
    (match mapGet c.items key with
     | some item => some item.value
     | none => none,
     [])
  else
    (none, if silent then [] else [CacheEvent.keyNotFound key])

/-- `Cache.remove(key)`. -/
def Cache.remove (c : Cache) (key : String) : Cache :=
  { c with items := mapDeleteKey c.items key }

/-- `Cache.clear()`. -/
def Cache.clear (c : Cache) : Cache :=
  { c with items := [] }

/-- `Cache.updatePolicy(policy)`. -/
def Cache.updatePolicy (now : Int) (c : Cache) (p : PolicyInput) : Cache :=
  Cache.schedulePrune now { c with policy := mergePolicy defaultPolicy p }

/-! ### The prune pass (cache.ts lines 127-184), stage by stage -/

/-- `sorted.sort((a, b) => a.added - b.added)`: ascending stable sort
on `added` of the insertion-order item list. -/
def sortByAdded (items : List CacheItem) : List CacheItem :=
  items.mergeSort (fun a b => a.added ≤ b.added)

/-- Age pass (lines 142-148): mark entries older than
`now - maxAge` and drop them from the working set. -/
def agePass (now : Int) (policy : CachePolicy)
    (sorted : List CacheItem) (remove : List String) :
    List CacheItem × List String :=
  if policy.maxAge > 0 then
    let oldest := now - policy.maxAge
    let remove' := remove ++ (sorted.filter (fun i => i.added < oldest)).map (·.key)
    (sorted.filter (fun i => !remove'.contains i.key), remove')
  else (sorted, remove)

/-- Count pass (lines 151-160): mark the oldest
`sorted.length - maxItems` survivors when there are too many. -/
def countPass (policy : CachePolicy)
    (sorted : List CacheItem) (remove : List String) :
    List CacheItem × List String :=
  if policy.maxItems > 0 ∧ (sorted.length : Int) > policy.maxItems then
    let tooMany := sorted.length - policy.maxItems.toNat
    let remove' := remove ++ (sorted.take tooMany).map (·.key)
    (sorted.filter (fun i => !remove'.contains i.key), remove')
  else (sorted, remove)

/-- Byte pass loop (lines 170-176): while the remaining total exceeds
`maxBytes`, shift the oldest survivor and mark it. Structural
recursion on the survivor list; the source loop spins without
progress on an exhausted list, which is unreachable because
`remaining` equals the total size of the survivors. -/
def bytePass (maxBytes : Int) : List CacheItem → Int → List String
  | [], _ => []
  | item :: rest, remaining =>
    if remaining > maxBytes then
      item.key :: bytePass maxBytes rest (remaining - item.size)
    else []

/-- Working set and marked keys after the age and count passes. -/
def pruneStages (now : Int) (c : Cache) :
    List CacheItem × List String :=
  let sorted0 := sortByAdded c.items
  let staged := agePass now c.policy sorted0 []
  countPass c.policy staged.1 staged.2

/-- Keys marked by the byte pass (lines 163-177): runs only when
`maxBytes > 0` and the cache is still measurable, starting from the
store total that excludes already marked keys. -/
def pruneByteMarks (now : Int) (c : Cache) : List String :=
  if c.policy.maxBytes > 0 ∧ c.canMeasureSize then
    bytePass c.policy.maxBytes (pruneStages now c).1
      (totalSize c.items (pruneStages now c).2)
  else []

/-- The full ordered removal list of one prune pass. The outer guard
(lines 128-133) skips everything when the cache is empty or every
threshold is zero. -/
def pruneRemoveList (now : Int) (c : Cache) : List String :=
  if c.items.length > 0 ∧
      (c.policy.maxAge ≠ 0 ∨ c.policy.maxItems ≠ 0 ∨ c.policy.maxBytes ≠ 0) then
    (pruneStages now c).2 ++ pruneByteMarks now c
  else []

/-- `Cache.prune()` (lines 127-184): delete every marked key, then
emit a single `ItemsEvicted` event iff anything was marked. Returns
the new state and the emitted events. -/
def Cache.prune (now : Int) (c : Cache) : Cache × List CacheEvent :=
  let remove := pruneRemoveList now c
  if remove.length > 0 then
    ({ c with items := remove.foldl mapDeleteKey c.items },
     [CacheEvent.itemsEvicted remove])
  else (c, [])

/-! ### Effect trace of `prune`, for the ordering claims -/

/-- Primitive store/channel effects of the tail of `prune`
(lines 179-183): one `del` per `items.delete(key)` and one `emit`
per `events.emit(...)`, in program order. -/
inductive PruneAction where
  | del (key : String)
  | emit (e : CacheEvent)
  deriving DecidableEq, Repr

/-- The effect trace of a prune pass, in the order the source
performs the effects: every deletion of `remove.forEach(...)`,
then the notification, and nothing at all when nothing was marked. -/
def pruneTrace (now : Int) (c : Cache) : List PruneAction :=
  let remove := pruneRemoveList now c
  if remove.length > 0 then
    remove.map PruneAction.del ++
      [PruneAction.emit (CacheEvent.itemsEvicted remove)]
  else []

/-- Replay the store effect of one action. -/
def applyAction (items : List CacheItem) : PruneAction → List CacheItem
  | PruneAction.del key => mapDeleteKey items key
  | PruneAction.emit _ => items

/-- Replay a list of actions on a store. -/
def applyActions (items : List CacheItem) (actions : List PruneAction) :
    List CacheItem :=
  actions.foldl applyAction items

/-! ### Operations as a step relation, for lifetime invariants -/

/-- One public cache operation. -/
inductive CacheOp where
  | add (key : String) (value : Val)
  | get (key : String) (silent : Bool)
  | remove (key : String)
  | clear
  | updatePolicy (p : PolicyInput)
  | prune
  deriving Repr

/-- Execute one operation at time `now`; result state and emitted
events. -/
def stepOp (now : Int) (c : Cache) : CacheOp → Cache × List CacheEvent
  | CacheOp.add key value => (Cache.add now c key value, [])
  | CacheOp.get key silent => (c, (Cache.get c key silent).2)
  | CacheOp.remove key => (Cache.remove c key, [])
  | CacheOp.clear => (Cache.clear c, [])
  | CacheOp.updatePolicy p => (Cache.updatePolicy now c p, [])
  | CacheOp.prune => Cache.prune now c

/-- Run a timed sequence of operations. -/
def runOps (c : Cache) : List (Int × CacheOp) → Cache
  | [] => c
  | (now, op) :: rest => runOps (stepOp now c op).1 rest

/-! ### CompressCache (compress-cache.ts)

`CompressCache extends Cache<Buffer>`; the stored values are always
`Val.buf`. The asynchronous compression pipeline is embedded by
splitting `addText` at its single `await` into a synchronous
beginning (`beginZip`) and a synchronous completion
(`endZip` + `super.add`). Pending promise resolvers in `zipQueue`
are identified by numeric continuation ids; resolving a continuation
is recorded as a pair (id, resolved buffer). The `gzip` and `unzip`
primitives are parameters of the model. -/

/-- Extract the byte list of a stored `Buffer` value. `Cache<Buffer>`
only ever stores buffers, so other shapes yield `none`. -/
def asBuf : Val → Option (List Nat)
  | Val.buf b => some b
  | _ => none

/-- `CompressCache` state. The loader is a pure function producing
the text the asynchronous `CacheLoader` would resolve with. -/
structure CompressCache where
  cache : Cache
  loader : Option (String → String)
  zipBuffer : List (String × String)
  zipQueue : List (String × List Nat)

/-! Plain string-keyed `Map` helpers for `zipBuffer` and `zipQueue`,
with the same insertion-order semantics as the item store. -/

def amapHas {α : Type} (m : List (String × α)) (key : String) : Bool :=
  m.any (fun e => e.1 == key)

def amapGet {α : Type} (m : List (String × α)) (key : String) : Option α :=
  (m.find? (fun e => e.1 == key)).map (·.2)

def amapSet {α : Type} (m : List (String × α)) (key : String) (v : α) :
    List (String × α) :=
  if amapHas m key then m.map (fun e => if e.1 == key then (key, v) else e)
  else m ++ [(key, v)]

def amapDelete {α : Type} (m : List (String × α)) (key : String) :
    List (String × α) :=
  m.filter (fun e => e.1 != key)

/-- `beginZip(key, value)`: stage the plaintext and open an empty
continuation queue for the key. -/
def beginZip (cc : CompressCache) (key value : String) : CompressCache :=
  { cc with
    zipBuffer := amapSet cc.zipBuffer key value,
    zipQueue := amapSet cc.zipQueue key [] }

/-- The part of `addText(key, value)` before its `await`: no-op on
empty text (`is.empty(value)`), otherwise `beginZip`. The `gzip`
call itself happens at the `await`; it is accounted to the
completion step. -/
def addTextBegin (cc : CompressCache) (key value : String) : CompressCache :=
  if value == "" then cc else beginZip cc key value

/-- The part of `addText(key, value)` after its `await` completes
with `zipped = g value`: `endZip` (unstage, drain and resolve the
queue in registration order) followed by `super.add(key, zipped)`.
Returns the new state, the resolutions performed (continuation id,
buffer it was resolved with) in order, and the number of `gzip`
invocations this step performed. -/
def addTextEnd (g : String → List Nat) (now : Int)
    (cc : CompressCache) (key value : String) :
    CompressCache × List (Nat × List Nat) × Nat :=
  if value == "" then (cc, [], 0)
  else
    let zipped := g value
    let queue := (amapGet cc.zipQueue key).getD []
    ({ cc with
       zipBuffer := amapDelete cc.zipBuffer key,
       zipQueue := amapDelete cc.zipQueue key,
       cache := Cache.add now cc.cache key (Val.buf zipped) },
     queue.map (fun cid => (cid, zipped)),
     1)

/-- How a synchronous evaluation of `getZip(key)` (compress-cache.ts
lines 349-367) leaves the caller. -/
inductive GetZipOutcome where
  | resolved (v : Option Val)
  | queued
  | loaderStarted
  deriving DecidableEq, Repr

/-- One `getZip(key)` call with continuation id `cid`: resolve from
the underlying cache when `contains(key)`; otherwise, while a zip is
in flight, push the continuation onto the key's queue; otherwise
start the loader; otherwise resolve `null`. Also returns the number
of `gzip` invocations performed by this synchronous step (always
zero: only `addText` compresses). -/
def getZipStep (cc : CompressCache) (key : String) (cid : Nat) :
    CompressCache × GetZipOutcome × Nat :=
  if Cache.contains cc.cache key false then
    (cc, GetZipOutcome.resolved (Cache.get cc.cache key false).1, 0)
  else if amapHas cc.zipQueue key then
    ({ cc with zipQueue :=
        amapSet cc.zipQueue key (((amapGet cc.zipQueue key).getD []) ++ [cid]) },
     GetZipOutcome.queued, 0)
  else if cc.loader.isSome then
    (cc, GetZipOutcome.loaderStarted, 0)
  else
    (cc, GetZipOutcome.resolved none, 0)

/-- Issue a sequence of `getZip(key)` calls one after the other;
returns the final state, the outcomes in call order, and the total
number of `gzip` invocations the calls performed. -/
def registerAll (key : String) (cc : CompressCache) : List Nat →
    CompressCache × List GetZipOutcome × Nat
  | [] => (cc, [], 0)
  | cid :: rest =>
    let stepped := getZipStep cc key cid
    let tail := registerAll key stepped.1 rest
    (tail.1, stepped.2.1 :: tail.2.1, stepped.2.2 + tail.2.2)

/-- Synchronous evaluation of `getText(key)` (lines 369-384), under
the scheduling in which every previously started compression either
already completed or is still in flight: `some r` means the call
resolves immediately with `r` (`none` standing for JS `null`);
`none` means the call suspends on in-flight work or on the loader. -/
def getTextSync (u : List Nat → String) (cc : CompressCache) (key : String) :
    Option (Option String) :=
  if amapHas cc.zipBuffer key then
    some (amapGet cc.zipBuffer key)
  else
    match (getZipStep cc key 0).2.1 with
    | GetZipOutcome.queued => none
    | GetZipOutcome.loaderStarted => none
    | GetZipOutcome.resolved none => some none
    | GetZipOutcome.resolved (some v) =>
      match asBuf v with
      | some b => some (some (u b))
      | none => none

/-! ## Lemmas about the store -/

theorem mapHas_iff (items : List CacheItem) (key : String) :
    mapHas items key = true ↔ ∃ i ∈ items, i.key = key := by
  simp [mapHas, List.any_eq_true]

theorem mapHas_eq_isSome (items : List CacheItem) (key : String) :
    mapHas items key = (mapGet items key).isSome := by
  rw [Bool.eq_iff_iff]
  simp [mapHas, mapGet, List.any_eq_true, List.find?_isSome]

theorem mapGet_eq_some_of_mapHas {items : List CacheItem} {key : String}
    (h : mapHas items key = true) : ∃ i, mapGet items key = some i := by
  rw [mapHas_eq_isSome] at h
  exact Option.isSome_iff_exists.mp h

/-- `contains` ignores `allowEmpty`: the emptiness test is applied to
the stored `CacheItem` record, which is never empty when present. -/
theorem contains_eq_mapHas (c : Cache) (key : String) (allowEmpty : Bool) :
    Cache.contains c key allowEmpty = mapHas c.items key := by
  unfold Cache.contains
  cases h : mapHas c.items key with
  | false => simp
  | true =>
    obtain ⟨i, hi⟩ := mapGet_eq_some_of_mapHas h
    simp [hi, isEmptyItem]

theorem mapGet_mapSet (items : List CacheItem) (it : CacheItem) :
    mapGet (mapSet items it) it.key = some it := by
  unfold mapSet
  by_cases h : mapHas items it.key = true
  · simp only [h, if_true]
    induction items with
    | nil => simp [mapHas] at h
    | cons j rest ih =>
      by_cases hj : j.key = it.key
      · simp [mapGet, hj]
      · have hrest : mapHas rest it.key = true := by
          simpa [mapHas, hj] using h
        have := ih hrest
        simpa [mapGet, hj] using this
  · have h' : mapHas items it.key = false := by
      simpa using h
    simp only [h', Bool.false_eq_true, if_false]
    have hnone : mapGet items it.key = none := by
      cases hg : mapGet items it.key with
      | none => rfl
      | some i =>
        rw [mapHas_eq_isSome, hg] at h'
        simp at h'
    unfold mapGet at hnone ⊢
    rw [List.find?_append, hnone]
    simp

theorem mapHas_mapSet (items : List CacheItem) (it : CacheItem) :
    mapHas (mapSet items it) it.key = true := by
  rw [mapHas_eq_isSome, mapGet_mapSet]
  rfl

/-- Folding `items.delete` over a key list filters all those keys
out. -/
theorem foldl_mapDeleteKey (ks : List String) (items : List CacheItem) :
    ks.foldl mapDeleteKey items = items.filter (fun i => !ks.contains i.key) := by
  induction ks generalizing items with
  | nil => simp
  | cons k rest ih =>
    rw [List.foldl_cons, ih, mapDeleteKey, List.filter_filter]
    apply List.filter_congr
    intro i _
    by_cases hk : i.key = k <;> simp [hk]

theorem mapHas_foldl_mapDeleteKey {ks : List String} {k : String}
    (items : List CacheItem) (h : k ∈ ks) :
    mapHas (ks.foldl mapDeleteKey items) k = false := by
  rw [foldl_mapDeleteKey]
  rw [Bool.eq_false_iff]
  intro hcontra
  obtain ⟨i, hi, hik⟩ := (mapHas_iff _ _).mp hcontra
  have := List.of_mem_filter hi
  simp [hik] at this
  exact this h

/-! ## The measurability flag is sticky -/

/-- No single operation can turn `canMeasureSize` back on. -/
theorem canMeasureSize_stepOp {c : Cache} (now : Int) (op : CacheOp)
    (h : c.canMeasureSize = false) :
    (stepOp now c op).1.canMeasureSize = false := by
  cases op with
  | add key value =>
    simp only [stepOp, Cache.add, h, Cache.schedulePrune]
    by_cases hv : isValue value = true <;> simp [hv, h]
  | get key silent => simpa [stepOp] using h
  | remove key => simpa [stepOp, Cache.remove] using h
  | clear => simpa [stepOp, Cache.clear] using h
  | updatePolicy p =>
    simpa [stepOp, Cache.updatePolicy, Cache.schedulePrune] using h
  | prune =>
    simp only [stepOp, Cache.prune]
    by_cases hr : (pruneRemoveList now c).length > 0 <;> simp [hr, h]

theorem canMeasureSize_runOps {c : Cache} (ops : List (Int × CacheOp))
    (h : c.canMeasureSize = false) :
    (runOps c ops).canMeasureSize = false := by
  induction ops generalizing c with
  | nil => simpa [runOps] using h
  | cons p rest ih =>
    obtain ⟨now, op⟩ := p
    exact ih (canMeasureSize_stepOp now op h)

/-- An `add` whose value the estimator reports unmeasurable leaves
the flag off (and turns it off if it was on). -/
theorem canMeasureSize_add_unmeasurable (now : Int) (c : Cache)
    (key : String) (value : Val)
    (hv : isValue value = true) (hm : byteSize value = -1) :
    (Cache.add now c key value).canMeasureSize = false := by
  simp only [Cache.add, Cache.schedulePrune, hv, if_true]
  by_cases h : c.canMeasureSize = true <;> simp [h, hm]

/-! ## Claim C2 -/

/-- C2: once an `add` of a value the size estimator reports
unmeasurable (`isValue` holds, `byteSize` is `-1`) has flipped the
measurability flag, no subsequent sequence of `add`, `get`,
`remove`, `clear`, `updatePolicy` or `prune` operations clears it
again, and while it is set the `size` property returns the explicit
unknown sentinel `-1` (never a total of stored sizes and never
zero). -/
theorem c2_unmeasurable_is_permanent (c : Cache) (now0 : Int) (key0 : String)
    (v0 : Val) (ops : List (Int × CacheOp))
    (hv : isValue v0 = true) (hm : byteSize v0 = -1) :
    (runOps (Cache.add now0 c key0 v0) ops).canMeasureSize = false ∧
    Cache.size (runOps (Cache.add now0 c key0 v0) ops) = -1 := by
  have h0 := canMeasureSize_add_unmeasurable now0 c key0 v0 hv hm
  have h1 := canMeasureSize_runOps ops h0
  exact ⟨h1, by simp [Cache.size, h1]⟩

theorem c2_witness :
    (isValue Val.other = true ∧ byteSize Val.other = -1) ∧
    ((runOps (Cache.add 0 (Cache.mk0 {}) "k" Val.other)
        [(1, CacheOp.add "a" (Val.str "xy")), (2, CacheOp.get "a" false),
         (3, CacheOp.get "zz" true), (4, CacheOp.remove "a"),
         (5, CacheOp.updatePolicy {}), (6, CacheOp.prune),
         (7, CacheOp.clear)]).canMeasureSize = false ∧
     Cache.size (runOps (Cache.add 0 (Cache.mk0 {}) "k" Val.other)
        [(1, CacheOp.add "a" (Val.str "xy")), (2, CacheOp.get "a" false),
         (3, CacheOp.get "zz" true), (4, CacheOp.remove "a"),
         (5, CacheOp.updatePolicy {}), (6, CacheOp.prune),
         (7, CacheOp.clear)]) = -1) :=
  ⟨⟨rfl, rfl⟩, c2_unmeasurable_is_permanent (Cache.mk0 {}) 0 "k" Val.other
      [(1, CacheOp.add "a" (Val.str "xy")), (2, CacheOp.get "a" false),
       (3, CacheOp.get "zz" true), (4, CacheOp.remove "a"),
       (5, CacheOp.updatePolicy {}), (6, CacheOp.prune),
       (7, CacheOp.clear)] rfl rfl⟩

/-! ## Claim C3 -/

/-- C3 counterexample: after `add("k", "")` the key `"k"` holds a
stored value that is empty under the `is.empty` predicate, yet
`contains("k", allowEmpty = false)` returns `true` — the claim says
it should return `false`. The emptiness test of `contains` is
applied to the `CacheItem` wrapper, not to the stored value. -/
theorem c3_counterexample :
    (mapGet (Cache.add 0 (Cache.mk0 {}) "k" (Val.str "")).items "k").map
        (fun i => isEmptyVal i.value) = some true ∧
    Cache.contains (Cache.add 0 (Cache.mk0 {}) "k" (Val.str "")) "k" false
      = true := by
  decide

/-- C3 amended: `contains(key, allowEmpty)` returns `true` exactly
when the key exists in the store; `allowEmpty` has no effect, because
the `is.empty` test is applied to the stored `CacheItem` record
(never `undefined`, `null` or `""` when the key exists), so a key
whose stored value is empty still counts as contained. -/
theorem c3_amended_contains_iff_has (c : Cache) (key : String)
    (allowEmpty : Bool) :
    Cache.contains c key allowEmpty = mapHas c.items key :=
  contains_eq_mapHas c key allowEmpty

/-! ## Claim C4 -/

/-- C4: `get` on an absent key returns the absent sentinel and emits
exactly one `KeyNotFound` notification carrying the key when
`silent` is false, and nothing when `silent` is true; on a present
key it returns the stored value and emits nothing. (`Cache.get` is a
total function: it never throws.) -/
theorem c4_get_miss_and_hit (c : Cache) (key : String) (silent : Bool) :
    (mapHas c.items key = false →
       Cache.get c key silent =
         (none, if silent then [] else [CacheEvent.keyNotFound key])) ∧
    (mapHas c.items key = true →
       ∃ item, mapGet c.items key = some item ∧
         Cache.get c key silent = (some item.value, [])) := by
  constructor
  · intro h
    simp [Cache.get, h]
  · intro h
    obtain ⟨item, hitem⟩ := mapGet_eq_some_of_mapHas h
    exact ⟨item, hitem, by simp [Cache.get, h, hitem]⟩

theorem c4_witness :
    (mapHas (Cache.mk0 {}).items "a" = false ∧
     Cache.get (Cache.mk0 {}) "a" false = (none, [CacheEvent.keyNotFound "a"]) ∧
     Cache.get (Cache.mk0 {}) "a" true = (none, [])) ∧
    (mapHas (Cache.add 0 (Cache.mk0 {}) "k" (Val.str "v")).items "k" = true ∧
     Cache.get (Cache.add 0 (Cache.mk0 {}) "k" (Val.str "v")) "k" false =
       (some (Val.str "v"), [])) := by
  refine ⟨⟨by decide, (c4_get_miss_and_hit (Cache.mk0 {}) "a" false).1 (by decide),
      (c4_get_miss_and_hit (Cache.mk0 {}) "a" true).1 (by decide)⟩,
    by decide, ?_⟩
  obtain ⟨item, hitem, hget⟩ :=
    (c4_get_miss_and_hit (Cache.add 0 (Cache.mk0 {}) "k" (Val.str "v")) "k"
      false).2 (by decide)
  have hval : mapGet (Cache.add 0 (Cache.mk0 {}) "k" (Val.str "v")).items "k" =
      some ⟨"k", 0, Val.str "v", 1⟩ := by decide
  rw [hval] at hitem
  cases hitem
  exact hget

/-! ## Claim C9 -/

/-- C9: once the measurability flag is off, every subsequent `add`
skips the estimator and records `sizeBytes = 0` for the new entry —
even for a measurable (string or buffer) value — and the byte pass
of `prune` can never mark anything again for that instance. -/
theorem c9_after_flip_adds_record_zero (c : Cache) (now now2 : Int)
    (key : String) (v : Val) (ops : List (Int × CacheOp))
    (h : c.canMeasureSize = false) (hv : isValue v = true) :
    mapGet (Cache.add now c key v).items key = some ⟨key, now, v, 0⟩ ∧
    (runOps c ops).canMeasureSize = false ∧
    pruneByteMarks now2 (runOps c ops) = [] := by
  have hm := canMeasureSize_runOps ops h
  refine ⟨?_, hm, ?_⟩
  · simp only [Cache.add, hv, if_true, h, Cache.schedulePrune, Bool.false_eq_true,
      if_false]
    exact mapGet_mapSet c.items ⟨key, now, v, 0⟩
  · unfold pruneByteMarks
    rw [if_neg]
    simp [hm]

theorem c9_witness :
    ((Cache.add 0 (Cache.mk0 {}) "u" Val.other).canMeasureSize = false ∧
     isValue (Val.str "measurable") = true) ∧
    (mapGet (Cache.add 5 (Cache.add 0 (Cache.mk0 {}) "u" Val.other) "k"
        (Val.str "measurable")).items "k" =
       some ⟨"k", 5, Val.str "measurable", 0⟩ ∧
     (runOps (Cache.add 0 (Cache.mk0 {}) "u" Val.other)
        [(1, CacheOp.add "s" (Val.str "abc")), (2, CacheOp.prune)]).canMeasureSize
       = false ∧
     pruneByteMarks 9 (runOps (Cache.add 0 (Cache.mk0 {}) "u" Val.other)
        [(1, CacheOp.add "s" (Val.str "abc")), (2, CacheOp.prune)]) = []) :=
  ⟨⟨by decide, rfl⟩,
   c9_after_flip_adds_record_zero (Cache.add 0 (Cache.mk0 {}) "u" Val.other)
     5 9 "k" (Val.str "measurable")
     [(1, CacheOp.add "s" (Val.str "abc")), (2, CacheOp.prune)]
     (by decide) rfl⟩

/-! ## Claim C10 -/

/-- C10: `remove` and `clear` mutate only the backing store — the
record updates leave `policy`, `canMeasureSize` and the pending
`evictTimer` untouched and the operations emit no event (also for a
`remove` of an absent key, since `items.delete` is unconditional) —
while `add` and `updatePolicy` re-arm the debounce timer. A prune
timer armed before a `remove`/`clear` is therefore still armed
afterwards. -/
theorem c10_remove_clear_frame (now : Int) (c : Cache) (key : String)
    (v : Val) (p : PolicyInput) :
    stepOp now c (CacheOp.remove key) =
      ({ c with items := mapDeleteKey c.items key }, []) ∧
    stepOp now c CacheOp.clear = ({ c with items := [] }, []) ∧
    (Cache.remove c key).evictTimer = c.evictTimer ∧
    (Cache.clear c).evictTimer = c.evictTimer ∧
    (Cache.add now c key v).evictTimer = some (now + 10) ∧
    (Cache.updatePolicy now c p).evictTimer = some (now + 10) := by
  refine ⟨rfl, rfl, rfl, rfl, ?_, rfl⟩
  unfold Cache.add Cache.schedulePrune
  by_cases hv : isValue v = true <;> simp [hv]

/-! ## Lemmas about sorting and size accounting -/

/-- Total size of a plain item list. -/
def sumSizes (l : List CacheItem) : Int := (l.map (·.size)).sum

theorem sumSizes_cons (i : CacheItem) (l : List CacheItem) :
    sumSizes (i :: l) = i.size + sumSizes l := by
  simp [sumSizes]

theorem sumSizes_append (l₁ l₂ : List CacheItem) :
    sumSizes (l₁ ++ l₂) = sumSizes l₁ + sumSizes l₂ := by
  simp [sumSizes]

theorem sumSizes_perm {l₁ l₂ : List CacheItem} (h : l₁.Perm l₂) :
    sumSizes l₁ = sumSizes l₂ := by
  unfold sumSizes
  exact (h.map (·.size)).sum_eq

theorem sumSizes_nonneg {l : List CacheItem}
    (h : ∀ i ∈ l, 0 ≤ i.size) : 0 ≤ sumSizes l := by
  induction l with
  | nil => simp [sumSizes]
  | cons i rest ih =>
    rw [sumSizes_cons]
    have h1 := h i (List.mem_cons_self i rest)
    have h2 := ih (fun j hj => h j (List.mem_cons_of_mem i hj))
    omega

theorem totalSize_eq_sumSizes (items : List CacheItem) (except : List String) :
    totalSize items except =
      sumSizes (items.filter (fun i => !except.contains i.key)) := by
  unfold totalSize sumSizes
  generalize items.filter (fun i => !except.contains i.key) = l
  suffices h : ∀ (l : List CacheItem) (a : Int),
      l.foldl (fun total i => total + i.size) a = a + (l.map (·.size)).sum by
    simpa using h l 0
  intro l
  induction l with
  | nil => simp
  | cons i rest ih =>
    intro a
    rw [List.foldl_cons, ih]
    simp
    omega

theorem totalSize_nil_except (items : List CacheItem) :
    totalSize items [] = sumSizes items := by
  rw [totalSize_eq_sumSizes]
  simp

theorem sortByAdded_perm (items : List CacheItem) :
    (sortByAdded items).Perm items :=
  List.mergeSort_perm items _

theorem sortByAdded_sorted (items : List CacheItem) :
    (sortByAdded items).Pairwise (fun a b => a.added ≤ b.added) := by
  have := @List.sorted_mergeSort CacheItem
    (fun a b : CacheItem => decide (a.added ≤ b.added))
    (by intro a b c hab hbc; simp at *; omega)
    (by intro a b; simp [Int.le_total]) items
  simpa [sortByAdded] using this

theorem mem_sortByAdded {i : CacheItem} {items : List CacheItem} :
    i ∈ sortByAdded items ↔ i ∈ items :=
  (sortByAdded_perm items).mem_iff

/-! ## Structure of the age and count passes -/

theorem agePass_pos {now : Int} {policy : CachePolicy}
    (sorted : List CacheItem) (remove : List String)
    (h : policy.maxAge > 0) :
    agePass now policy sorted remove =
      (sorted.filter (fun i =>
         !(remove ++ (sorted.filter
             (fun i => i.added < now - policy.maxAge)).map (·.key)).contains i.key),
       remove ++ (sorted.filter
         (fun i => i.added < now - policy.maxAge)).map (·.key)) := by
  simp [agePass, h]

theorem agePass_neg {now : Int} {policy : CachePolicy}
    (sorted : List CacheItem) (remove : List String)
    (h : ¬policy.maxAge > 0) :
    agePass now policy sorted remove = (sorted, remove) := by
  simp [agePass, h]

theorem countPass_pos {policy : CachePolicy}
    (sorted : List CacheItem) (remove : List String)
    (h : policy.maxItems > 0 ∧ (sorted.length : Int) > policy.maxItems) :
    countPass policy sorted remove =
      (sorted.filter (fun i =>
         !(remove ++ (sorted.take (sorted.length - policy.maxItems.toNat)).map
             (·.key)).contains i.key),
       remove ++ (sorted.take (sorted.length - policy.maxItems.toNat)).map
         (·.key)) := by
  simp [countPass, h]

theorem countPass_neg {policy : CachePolicy}
    (sorted : List CacheItem) (remove : List String)
    (h : ¬(policy.maxItems > 0 ∧ (sorted.length : Int) > policy.maxItems)) :
    countPass policy sorted remove = (sorted, remove) := by
  simp only [countPass, if_neg h]

/-- Filtering by the marks accumulated so far and then by a larger
mark list is the same as filtering by the larger list alone. -/
theorem filter_marks_append (s : List CacheItem) (r1 r2 : List String)
    (hsub : ∀ k, k ∈ r1 → k ∈ r2) :
    (s.filter (fun i => !r1.contains i.key)).filter
        (fun i => !r2.contains i.key) =
      s.filter (fun i => !r2.contains i.key) := by
  rw [List.filter_filter]
  apply List.filter_congr
  intro i _
  by_cases h1 : i.key ∈ r1
  · have h2 := hsub _ h1
    simp [h1, h2]
  · simp [h1]

/-- The working set surviving the age and count passes is the sorted
snapshot minus the entries whose key the passes marked. -/
theorem pruneStages_fst_eq (now : Int) (c : Cache) :
    (pruneStages now c).1 =
      (sortByAdded c.items).filter
        (fun i => !(pruneStages now c).2.contains i.key) := by
  unfold pruneStages
  dsimp only
  by_cases hA : c.policy.maxAge > 0
  · rw [agePass_pos (sortByAdded c.items) [] hA]
    simp only [List.nil_append]
    set s0 := sortByAdded c.items with hs0
    set r1 := (s0.filter (fun i => i.added < now - c.policy.maxAge)).map (·.key)
      with hr1
    set s1 := s0.filter (fun i => !r1.contains i.key) with hs1
    by_cases hC : c.policy.maxItems > 0 ∧ (s1.length : Int) > c.policy.maxItems
    · rw [countPass_pos s1 r1 hC]
      simp only
      rw [hs1]
      exact filter_marks_append s0 r1 _
        (fun k hk => List.mem_append_left _ hk)
    · rw [countPass_neg s1 r1 hC]
  · rw [agePass_neg (sortByAdded c.items) [] hA]
    by_cases hC : c.policy.maxItems > 0 ∧
        ((sortByAdded c.items).length : Int) > c.policy.maxItems
    · rw [countPass_pos _ [] hC]
    · rw [countPass_neg _ [] hC]
      simp

/-! ## The byte pass -/

/-- Full behaviour of the byte-pass loop when started, as in `prune`,
with `R` equal to the total size of the survivor list: the marked
keys are a prefix of the survivors (oldest first), the unmarked
suffix weighs at most `N`, and before every single removal the
remaining total still exceeded `N` (so no removal was spurious). -/
theorem bytePass_spec (N : Int) (hN : 0 < N) :
    ∀ (l : List CacheItem) (R : Int), R = sumSizes l →
      ∃ p s, l = p ++ s ∧ bytePass N l R = p.map (·.key) ∧
        sumSizes s ≤ N ∧
        ∀ k, k < p.length → R - sumSizes (p.take k) > N := by
  intro l
  induction l with
  | nil =>
    intro R hR
    refine ⟨[], [], rfl, rfl, ?_, ?_⟩
    · simp [sumSizes]
      omega
    · intro k hk
      simp at hk
  | cons i rest ih =>
    intro R hR
    rw [sumSizes_cons] at hR
    by_cases hguard : R > N
    · obtain ⟨p, s, hps, hbp, hs, hmin⟩ := ih (R - i.size) (by omega)
      refine ⟨i :: p, s, by rw [List.cons_append, ← hps], ?_, hs, ?_⟩
      · simp [bytePass, hguard, hbp]
      · intro k hk
        cases k with
        | zero =>
          simp [sumSizes]
          omega
        | succ k' =>
          have := hmin k' (by simpa using hk)
          rw [List.take_succ_cons, sumSizes_cons]
          omega
    · refine ⟨[], i :: rest, rfl, ?_, ?_, ?_⟩
      · simp [bytePass, hguard]
      · rw [sumSizes_cons]
        omega
      · intro k hk
        simp at hk

/-- Every key the byte pass marks is the key of a survivor. -/
theorem bytePass_mem {N : Int} {k : String} :
    ∀ {l : List CacheItem} {R : Int}, k ∈ bytePass N l R →
      ∃ i ∈ l, i.key = k := by
  intro l
  induction l with
  | nil =>
    intro R h
    simp [bytePass] at h
  | cons i rest ih =>
    intro R h
    by_cases hguard : R > N
    · simp only [bytePass, if_pos hguard, List.mem_cons] at h
      rcases h with h | h
      · exact ⟨i, List.mem_cons_self i rest, h.symm⟩
      · obtain ⟨j, hj, hjk⟩ := ih h
        exact ⟨j, List.mem_cons_of_mem i hj, hjk⟩
    · simp [bytePass, hguard] at h

/-! ## Membership facts about the prune marks -/

theorem agePass_fst_sub {now : Int} {policy : CachePolicy}
    {sorted : List CacheItem} {remove : List String} {i : CacheItem}
    (h : i ∈ (agePass now policy sorted remove).1) : i ∈ sorted := by
  unfold agePass at h
  split at h
  · exact List.mem_of_mem_filter h
  · exact h

theorem countPass_fst_sub {policy : CachePolicy}
    {sorted : List CacheItem} {remove : List String} {i : CacheItem}
    (h : i ∈ (countPass policy sorted remove).1) : i ∈ sorted := by
  unfold countPass at h
  split at h
  · exact List.mem_of_mem_filter h
  · exact h

theorem agePass_snd_mem {now : Int} {policy : CachePolicy}
    {sorted : List CacheItem} {remove : List String} {k : String}
    (h : k ∈ (agePass now policy sorted remove).2) :
    k ∈ remove ∨ ∃ i ∈ sorted, i.key = k := by
  unfold agePass at h
  split at h
  · simp only [List.mem_append] at h
    rcases h with h | h
    · exact Or.inl h
    · obtain ⟨i, hi, hik⟩ := List.mem_map.mp h
      exact Or.inr ⟨i, List.mem_of_mem_filter hi, hik⟩
  · exact Or.inl h

theorem countPass_snd_mem {policy : CachePolicy}
    {sorted : List CacheItem} {remove : List String} {k : String}
    (h : k ∈ (countPass policy sorted remove).2) :
    k ∈ remove ∨ ∃ i ∈ sorted, i.key = k := by
  unfold countPass at h
  split at h
  · simp only [List.mem_append] at h
    rcases h with h | h
    · exact Or.inl h
    · obtain ⟨i, hi, hik⟩ := List.mem_map.mp h
      exact Or.inr ⟨i, List.mem_of_mem_take hi, hik⟩
  · exact Or.inl h

theorem pruneStages_fst_mem {now : Int} {c : Cache} {i : CacheItem}
    (h : i ∈ (pruneStages now c).1) : i ∈ c.items := by
  have h1 := countPass_fst_sub h
  have h2 := agePass_fst_sub h1
  exact mem_sortByAdded.mp h2

theorem pruneStages_snd_mem {now : Int} {c : Cache} {k : String}
    (h : k ∈ (pruneStages now c).2) : mapHas c.items k = true := by
  rcases countPass_snd_mem h with h1 | ⟨i, hi, hik⟩
  · rcases agePass_snd_mem h1 with h2 | ⟨i, hi, hik⟩
    · simp at h2
    · exact (mapHas_iff _ _).mpr ⟨i, mem_sortByAdded.mp hi, hik⟩
  · have h2 := agePass_fst_sub hi
    exact (mapHas_iff _ _).mpr ⟨i, mem_sortByAdded.mp h2, hik⟩

theorem pruneByteMarks_mem {now : Int} {c : Cache} {k : String}
    (h : k ∈ pruneByteMarks now c) : mapHas c.items k = true := by
  unfold pruneByteMarks at h
  split at h
  · obtain ⟨i, hi, hik⟩ := bytePass_mem h
    exact (mapHas_iff _ _).mpr ⟨i, pruneStages_fst_mem hi, hik⟩
  · simp at h

/-- Every key a prune pass marks for removal names an entry that is
present in the store at the start of the pass. -/
theorem pruneRemoveList_mem {now : Int} {c : Cache} {k : String}
    (h : k ∈ pruneRemoveList now c) : mapHas c.items k = true := by
  unfold pruneRemoveList at h
  split at h
  · rcases List.mem_append.mp h with h1 | h1
    · exact pruneStages_snd_mem h1
    · exact pruneByteMarks_mem h1
  · simp at h

/-! ## Claim C6 -/

/-- The only way to split a trace of deletions followed by a single
emission around an `emit` is at that final emission. -/
theorem dels_append_emit_eq (l : List String) (ev : CacheEvent) :
    ∀ (pre : List PruneAction) (e : CacheEvent) (post : List PruneAction),
      l.map PruneAction.del ++ [PruneAction.emit ev] =
        pre ++ PruneAction.emit e :: post →
      pre = l.map PruneAction.del ∧ e = ev ∧ post = [] := by
  induction l with
  | nil =>
    intro pre e post h
    simp only [List.map_nil, List.nil_append] at h
    cases pre with
    | nil =>
      simp only [List.nil_append] at h
      injection h with h1 h2
      injection h1 with h3
      exact ⟨rfl, h3.symm, h2.symm⟩
    | cons a pre' =>
      simp only [List.cons_append] at h
      injection h with h1 h2
      exact absurd h2.symm (by simp)
  | cons k rest ih =>
    intro pre e post h
    simp only [List.map_cons, List.cons_append] at h
    cases pre with
    | nil =>
      simp only [List.nil_append] at h
      injection h with h1 h2
      exact absurd h1 (by simp)
    | cons a pre' =>
      simp only [List.cons_append] at h
      injection h with h1 h2
      obtain ⟨hp, he, hpost⟩ := ih pre' e post h2
      exact ⟨by rw [hp, ← h1, List.map_cons], he, hpost⟩

theorem applyActions_dels (ks : List String) (items : List CacheItem) :
    applyActions items (ks.map PruneAction.del) = ks.foldl mapDeleteKey items := by
  unfold applyActions
  rw [List.foldl_map]
  rfl

/-- C6: in the effect trace of a prune pass, the eviction
notification comes only after every deletion (replaying the actions
before the `emit` already yields the final store, so a listener sees
a store reflecting all removals); the notification carries the
ordered list of removed keys — each naming an entry present at the
start of the pass — and it is emitted exactly when at least one
entry was marked for removal. -/
theorem c6_emit_after_deletions (now : Int) (c : Cache) :
    (∀ pre e post, pruneTrace now c = pre ++ PruneAction.emit e :: post →
       post = [] ∧
       pre = (pruneRemoveList now c).map PruneAction.del ∧
       e = CacheEvent.itemsEvicted (pruneRemoveList now c) ∧
       applyActions c.items pre = (Cache.prune now c).1.items) ∧
    ((Cache.prune now c).2 =
       if pruneRemoveList now c = [] then []
       else [CacheEvent.itemsEvicted (pruneRemoveList now c)]) ∧
    (∀ k ∈ pruneRemoveList now c, mapHas c.items k = true) := by
  refine ⟨?_, ?_, fun k hk => pruneRemoveList_mem hk⟩
  · intro pre e post h
    simp only [pruneTrace] at h
    by_cases hr : (pruneRemoveList now c).length > 0
    · rw [if_pos hr] at h
      obtain ⟨hp, he, hpost⟩ := dels_append_emit_eq _ _ pre e post h
      refine ⟨hpost, hp, he, ?_⟩
      rw [hp, applyActions_dels]
      simp only [Cache.prune, if_pos hr]
    · rw [if_neg hr] at h
      exact absurd h (by simp)
  · simp only [Cache.prune]
    by_cases hr : (pruneRemoveList now c).length > 0
    · rw [if_pos hr, if_neg (by
        intro hnil
        rw [hnil] at hr
        simp at hr)]
    · rw [if_neg hr, if_pos (by
        rcases List.eq_nil_or_concat (pruneRemoveList now c) with h | ⟨l, a, h⟩
        · exact h
        · rw [h] at hr
          simp at hr)]

/-! ## Claim C1 -/

/-- The store after a prune pass is the original store minus the
marked keys, whether or not anything was marked. -/
theorem prune_items_eq (now : Int) (c : Cache) :
    (Cache.prune now c).1.items =
      c.items.filter (fun i => !(pruneRemoveList now c).contains i.key) := by
  unfold Cache.prune
  by_cases hr : (pruneRemoveList now c).length > 0
  · rw [if_pos hr]
    exact foldl_mapDeleteKey _ _
  · rw [if_neg hr]
    have hnil : pruneRemoveList now c = [] :=
      List.eq_nil_of_length_eq_zero (by omega)
    rw [hnil]
    simp

/-- Unique store keys survive sorting and the age/count passes. -/
theorem pruneStages_keys_nodup {now : Int} {c : Cache}
    (hKeys : (c.items.map (·.key)).Nodup) :
    ((pruneStages now c).1.map (·.key)).Nodup := by
  rw [pruneStages_fst_eq]
  have hperm : ((sortByAdded c.items).map (·.key)).Perm (c.items.map (·.key)) :=
    (sortByAdded_perm c.items).map _
  have hsortnd : ((sortByAdded c.items).map (·.key)).Nodup :=
    hperm.nodup_iff.mpr hKeys
  exact List.Nodup.sublist ((List.filter_sublist _).map _) hsortnd

/-- C1: with `maxBytes = N > 0` in a measurable cache (unique keys,
non-negative stored sizes), the byte pass removes survivors of the
age and count passes oldest-first (the survivor list is sorted
ascending by `added` and the marks are a prefix of it), one at a
time: before each removal the total size of the entries still in the
store and not already marked exceeded `N` (so nothing is removed
once fewer removals already satisfy the bound), the unmarked suffix
weighs at most `N`, and after the pass the total remaining size of
the store is at most `N`. -/
theorem c1_byte_pass_minimal (now : Int) (c : Cache) (N : Int)
    (hNb : c.policy.maxBytes = N) (hN : 0 < N)
    (hMeas : c.canMeasureSize = true)
    (hKeys : (c.items.map (·.key)).Nodup) :
    (pruneStages now c).1.Pairwise (fun a b => a.added ≤ b.added) ∧
    (∃ p s, (pruneStages now c).1 = p ++ s ∧
       pruneByteMarks now c = p.map (·.key) ∧
       sumSizes s ≤ N ∧
       (∀ k, k < p.length →
          totalSize c.items (pruneStages now c).2 - sumSizes (p.take k) > N)) ∧
    totalSize (Cache.prune now c).1.items [] ≤ N := by
  have hsorted : (pruneStages now c).1.Pairwise (fun a b => a.added ≤ b.added) := by
    rw [pruneStages_fst_eq]
    exact List.Pairwise.sublist (List.filter_sublist _) (sortByAdded_sorted c.items)
  have hR : totalSize c.items (pruneStages now c).2 =
      sumSizes (pruneStages now c).1 := by
    rw [totalSize_eq_sumSizes, pruneStages_fst_eq]
    exact sumSizes_perm ((sortByAdded_perm c.items).symm.filter _)
  have hguard : c.policy.maxBytes > 0 ∧ c.canMeasureSize = true :=
    ⟨by omega, hMeas⟩
  have hBM : pruneByteMarks now c =
      bytePass N (pruneStages now c).1
        (totalSize c.items (pruneStages now c).2) := by
    unfold pruneByteMarks
    rw [if_pos (by simpa using hguard), hNb]
  obtain ⟨p, s, hps, hbp, hs, hmin⟩ :=
    bytePass_spec N hN (pruneStages now c).1
      (totalSize c.items (pruneStages now c).2) hR
  refine ⟨hsorted, ⟨p, s, hps, hBM.trans hbp, hs, hmin⟩, ?_⟩
  by_cases hempty : c.items = []
  · have hrm : pruneRemoveList now c = [] := by
      unfold pruneRemoveList
      rw [if_neg (by simp [hempty])]
    rw [prune_items_eq, hrm, hempty]
    simp [totalSize]
    omega
  · have hg : c.items.length > 0 ∧
        (c.policy.maxAge ≠ 0 ∨ c.policy.maxItems ≠ 0 ∨ c.policy.maxBytes ≠ 0) :=
      ⟨List.length_pos.mpr hempty, Or.inr (Or.inr (by omega))⟩
    have hrm : pruneRemoveList now c =
        (pruneStages now c).2 ++ pruneByteMarks now c := by
      unfold pruneRemoveList
      rw [if_pos hg]
    -- the surviving store is exactly the unmarked suffix `s`
    have hsub : ∀ k, k ∈ (pruneStages now c).2 → k ∈ pruneRemoveList now c := by
      intro k hk
      rw [hrm]
      exact List.mem_append_left _ hk
    have hfinal : sumSizes (Cache.prune now c).1.items =
        sumSizes ((pruneStages now c).1.filter
          (fun i => !(pruneRemoveList now c).contains i.key)) := by
      rw [prune_items_eq, pruneStages_fst_eq, filter_marks_append _ _ _ hsub]
      exact sumSizes_perm ((sortByAdded_perm c.items).symm.filter _)
    have hkeysnd : (((pruneStages now c).1).map (·.key)).Nodup :=
      pruneStages_keys_nodup hKeys
    rw [hps] at hkeysnd
    rw [List.map_append] at hkeysnd
    obtain ⟨-, -, hdisj⟩ := List.nodup_append.mp hkeysnd
    -- the filter keeps exactly `s`
    have hp_nil : p.filter (fun i => !(pruneRemoveList now c).contains i.key)
        = [] := by
      rw [List.filter_eq_nil_iff]
      intro i hi
      have : i.key ∈ pruneRemoveList now c := by
        rw [hrm, hBM.trans hbp]
        exact List.mem_append_right _ (List.mem_map_of_mem _ hi)
      simp [this]
    have hs_self : s.filter (fun i => !(pruneRemoveList now c).contains i.key)
        = s := by
      rw [List.filter_eq_self]
      intro i hi
      have hnotp : i.key ∉ p.map (·.key) := by
        intro hmem
        exact hdisj hmem (List.mem_map_of_mem _ hi)
      have hnotmarks : i.key ∉ (pruneStages now c).2 := by
        intro hmem
        have hi2 : i ∈ (pruneStages now c).1 := by
          rw [hps]
          exact List.mem_append_right _ hi
        rw [pruneStages_fst_eq] at hi2
        have := List.of_mem_filter hi2
        simp [hmem] at this
      have : i.key ∉ pruneRemoveList now c := by
        rw [hrm, hBM.trans hbp]
        intro hmem
        rcases List.mem_append.mp hmem with h | h
        · exact hnotmarks h
        · exact hnotp h
      simp [this]
    calc totalSize (Cache.prune now c).1.items []
        = sumSizes ((Cache.prune now c).1.items) := totalSize_nil_except _
      _ = sumSizes (p.filter (fun i => !(pruneRemoveList now c).contains i.key)
            ++ s.filter (fun i => !(pruneRemoveList now c).contains i.key)) := by
          rw [hfinal, hps, List.filter_append]
      _ = sumSizes s := by rw [hp_nil, hs_self]; simp [sumSizes]
      _ ≤ N := hs

theorem c1_witness :
    ((⟨[⟨"a", 1, Val.str "xxxx", 4⟩, ⟨"b", 2, Val.str "yyyyy", 5⟩,
        ⟨"c", 3, Val.str "zzzzzz", 6⟩], ⟨0, 0, 10⟩, true, none⟩ :
        Cache).policy.maxBytes = 10 ∧ (0 : Int) < 10 ∧
     (⟨[⟨"a", 1, Val.str "xxxx", 4⟩, ⟨"b", 2, Val.str "yyyyy", 5⟩,
        ⟨"c", 3, Val.str "zzzzzz", 6⟩], ⟨0, 0, 10⟩, true, none⟩ :
        Cache).canMeasureSize = true) ∧
    totalSize (Cache.prune 20 (⟨[⟨"a", 1, Val.str "xxxx", 4⟩,
        ⟨"b", 2, Val.str "yyyyy", 5⟩, ⟨"c", 3, Val.str "zzzzzz", 6⟩],
        ⟨0, 0, 10⟩, true, none⟩ : Cache)).1.items [] ≤ 10 :=
  ⟨⟨rfl, by omega, rfl⟩,
   (c1_byte_pass_minimal 20
      (⟨[⟨"a", 1, Val.str "xxxx", 4⟩, ⟨"b", 2, Val.str "yyyyy", 5⟩,
         ⟨"c", 3, Val.str "zzzzzz", 6⟩], ⟨0, 0, 10⟩, true, none⟩ : Cache)
      10 rfl (by omega) rfl (by decide)).2.2⟩

/-! ## Claim C5 -/

theorem agePass_fst_sublist (now : Int) (policy : CachePolicy)
    (sorted : List CacheItem) (remove : List String) :
    (agePass now policy sorted remove).1.Sublist sorted := by
  unfold agePass
  split
  · exact List.filter_sublist _
  · exact List.Sublist.refl _

theorem mapHas_filter_marks {items : List CacheItem} {ks : List String}
    {k : String} (h : k ∈ ks) :
    mapHas (items.filter (fun i => !ks.contains i.key)) k = false := by
  rw [Bool.eq_false_iff]
  intro hcontra
  obtain ⟨i, hi, hik⟩ := (mapHas_iff _ _).mp hcontra
  have := List.of_mem_filter hi
  simp [hik] at this
  exact this h

/-- C5: when more than `maxItems = m > 0` entries (with distinct
timestamps) survive the age pass, the count pass marks exactly the
`surviving − m` entries with the smallest `added` timestamps — every
marked entry is strictly older than every kept one — those keys are
deleted from the store by the pass, and when the age and byte
thresholds are disabled the pass emits a single `ItemsEvicted`
notification carrying exactly those keys. -/
theorem c5_count_pass_oldest (now : Int) (c : Cache)
    (hm : 0 < c.policy.maxItems)
    (hS : (((agePass now c.policy (sortByAdded c.items) []).1.length : Int)) >
      c.policy.maxItems)
    (hdist : (((agePass now c.policy (sortByAdded c.items) []).1.map
      (·.added)).Nodup)) :
    let S := (agePass now c.policy (sortByAdded c.items) []).1
    let t := S.length - c.policy.maxItems.toNat
    let marked := (S.take t).map (·.key)
    (pruneStages now c).2 =
      (agePass now c.policy (sortByAdded c.items) []).2 ++ marked ∧
    (marked.length : Int) = (S.length : Int) - c.policy.maxItems ∧
    (∀ i ∈ S.take t, ∀ j ∈ S.drop t, i.added < j.added) ∧
    (∀ k ∈ marked, k ∈ pruneRemoveList now c ∧
       mapHas (Cache.prune now c).1.items k = false) ∧
    (c.policy.maxAge = 0 → c.policy.maxBytes = 0 →
       (Cache.prune now c).2 = [CacheEvent.itemsEvicted marked]) := by
  intro S t marked
  have hguardC : c.policy.maxItems > 0 ∧ (S.length : Int) > c.policy.maxItems :=
    ⟨hm, hS⟩
  have htlen : t < S.length := by
    have : c.policy.maxItems.toNat < S.length := by omega
    omega
  have ht_pos : 0 < t := by omega
  have hstages : (pruneStages now c).2 =
      (agePass now c.policy (sortByAdded c.items) []).2 ++ marked := by
    unfold pruneStages
    dsimp only
    rw [countPass_pos _ _ hguardC]
  have hlen : (marked.length : Int) = (S.length : Int) - c.policy.maxItems := by
    have h1 : marked.length = t := by
      simp only [marked, List.length_map]
      exact List.length_take_of_le (by omega)
    rw [h1]
    omega
  have hSsorted : S.Pairwise (fun a b => a.added ≤ b.added) :=
    List.Pairwise.sublist (agePass_fst_sublist now c.policy _ [])
      (sortByAdded_sorted c.items)
  have horder : ∀ i ∈ S.take t, ∀ j ∈ S.drop t, i.added < j.added := by
    have hdist' : (S.map (·.added)).Nodup := hdist
    have hsplit : S = S.take t ++ S.drop t := (List.take_append_drop t S).symm
    rw [hsplit] at hSsorted hdist'
    rw [List.map_append] at hdist'
    obtain ⟨-, -, hdisj⟩ := List.nodup_append.mp hdist'
    have hle := (List.pairwise_append.mp hSsorted).2.2
    intro i hi j hj
    have h1 := hle i hi j hj
    rcases lt_or_eq_of_le h1 with h | h
    · exact h
    · exact absurd (h ▸ List.mem_map_of_mem (·.added) hj)
        (hdisj (List.mem_map_of_mem (·.added) hi))
  have hSne : S ≠ [] := by
    have : 0 < S.length := by omega
    exact List.length_pos.mp this
  have hitems_ne : c.items ≠ [] := by
    intro hnil
    apply hSne
    have hsub : S.Sublist (sortByAdded c.items) :=
      agePass_fst_sublist now c.policy _ []
    rw [hnil] at hsub
    rw [show sortByAdded [] = [] from by simp [sortByAdded]] at hsub
    exact List.sublist_nil.mp hsub
  have hguard : c.items.length > 0 ∧
      (c.policy.maxAge ≠ 0 ∨ c.policy.maxItems ≠ 0 ∨ c.policy.maxBytes ≠ 0) :=
    ⟨List.length_pos.mpr hitems_ne, Or.inr (Or.inl (by omega))⟩
  have hrm : pruneRemoveList now c =
      (pruneStages now c).2 ++ pruneByteMarks now c := by
    unfold pruneRemoveList
    rw [if_pos hguard]
  have hmemrm : ∀ k ∈ marked, k ∈ pruneRemoveList now c := by
    intro k hk
    rw [hrm, hstages]
    exact List.mem_append_left _
      (List.mem_append_right _ hk)
  refine ⟨hstages, hlen, horder, ?_, ?_⟩
  · intro k hk
    refine ⟨hmemrm k hk, ?_⟩
    rw [prune_items_eq]
    exact mapHas_filter_marks (hmemrm k hk)
  · intro hAge0 hBytes0
    have hr1 : agePass now c.policy (sortByAdded c.items) [] =
        (sortByAdded c.items, []) :=
      agePass_neg _ _ (by omega)
    have hbm : pruneByteMarks now c = [] := by
      unfold pruneByteMarks
      rw [if_neg]
      intro hcontra
      omega
    have hmarked_ne : marked ≠ [] := by
      intro hnil
      have : marked.length = 0 := by rw [hnil]; rfl
      simp only [marked, List.length_map] at this
      rw [List.length_take_of_le (by omega)] at this
      omega
    have hrme : pruneRemoveList now c = marked := by
      rw [hrm, hstages, hbm, hr1]
      simp
    unfold Cache.prune
    rw [if_pos (by
      rw [hrme]
      cases hmk : marked with
      | nil => exact absurd hmk hmarked_ne
      | cons a l => simp)]
    rw [hrme]

def cacheC5 : Cache :=
  ⟨[⟨"k1", 1, Val.str "a", 1⟩, ⟨"k2", 2, Val.str "b", 1⟩,
    ⟨"k3", 3, Val.str "c", 1⟩], ⟨2, 0, 0⟩, true, none⟩

theorem c5_witness :
    ((0 : Int) < cacheC5.policy.maxItems ∧
     ((agePass 20 cacheC5.policy (sortByAdded cacheC5.items) []).1.length : Int)
       > cacheC5.policy.maxItems ∧
     (((agePass 20 cacheC5.policy (sortByAdded cacheC5.items) []).1.map
       (·.added)).Nodup)) ∧
    (Cache.prune 20 cacheC5).2 = [CacheEvent.itemsEvicted ["k1"]] := by
  have hsort : sortByAdded cacheC5.items = cacheC5.items :=
    List.mergeSort_of_sorted (by decide)
  have hAge : agePass 20 cacheC5.policy (sortByAdded cacheC5.items) [] =
      (cacheC5.items, []) := by
    rw [hsort]
    exact agePass_neg _ _ (by decide)
  have hm : (0 : Int) < cacheC5.policy.maxItems := by decide
  have hS : ((agePass 20 cacheC5.policy (sortByAdded cacheC5.items) []).1.length
      : Int) > cacheC5.policy.maxItems := by
    rw [hAge]
    decide
  have hdist : (((agePass 20 cacheC5.policy (sortByAdded cacheC5.items) []).1.map
      (·.added)).Nodup) := by
    rw [hAge]
    decide
  refine ⟨⟨hm, hS, hdist⟩, ?_⟩
  have h := (c5_count_pass_oldest 20 cacheC5 hm hS hdist).2.2.2.2 rfl rfl
  rw [h, hAge]
  decide

/-! ## Lemmas about the string-keyed maps of CompressCache -/

theorem amapHas_eq_isSome {α : Type} (m : List (String × α)) (key : String) :
    amapHas m key = (amapGet m key).isSome := by
  rw [Bool.eq_iff_iff]
  simp [amapHas, amapGet, List.any_eq_true, List.find?_isSome]

theorem amapGet_amapSet {α : Type} (m : List (String × α)) (key : String)
    (v : α) : amapGet (amapSet m key v) key = some v := by
  unfold amapSet
  by_cases h : amapHas m key = true
  · simp only [h, if_true]
    induction m with
    | nil => simp [amapHas] at h
    | cons e rest ih =>
      by_cases he : e.1 = key
      · simp [amapGet, he]
      · have hrest : amapHas rest key = true := by
          simpa [amapHas, he] using h
        have := ih hrest
        simpa [amapGet, he] using this
  · have h' : amapHas m key = false := by simpa using h
    simp only [h', Bool.false_eq_true, if_false]
    have hnone : m.find? (fun e => e.1 == key) = none := by
      cases hg : m.find? (fun e => e.1 == key) with
      | none => rfl
      | some x =>
        rw [amapHas_eq_isSome] at h'
        unfold amapGet at h'
        rw [hg] at h'
        simp at h'
    unfold amapGet
    rw [List.find?_append, hnone]
    simp

theorem amapHas_amapSet {α : Type} (m : List (String × α)) (key : String)
    (v : α) : amapHas (amapSet m key v) key = true := by
  rw [amapHas_eq_isSome, amapGet_amapSet]
  rfl

theorem amapHas_amapDelete {α : Type} (m : List (String × α)) (key : String) :
    amapHas (amapDelete m key) key = false := by
  rw [Bool.eq_false_iff]
  intro h
  simp only [amapHas, List.any_eq_true] at h
  obtain ⟨e, he, hek⟩ := h
  have hmem := List.of_mem_filter he
  rw [beq_iff_eq] at hek
  simp [hek] at hmem

/-! ## Claim C7 -/

/-- C7: assuming the compression primitives are lossless inverses at
`t`, `addText(key, t)` for non-empty `t` followed by `getText(key)`
yields `t` both while the compression is still in flight (the
staging buffer answers with the plaintext) and after it completes
(the stored buffer is decompressed). -/
theorem c7_addText_getText_roundtrip (g : String → List Nat)
    (u : List Nat → String) (cc : CompressCache) (key t : String) (now : Int)
    (ht : t ≠ "") (hu : u (g t) = t) :
    getTextSync u (addTextBegin cc key t) key = some (some t) ∧
    getTextSync u (addTextEnd g now (addTextBegin cc key t) key t).1 key =
      some (some t) := by
  have hbegin : addTextBegin cc key t = beginZip cc key t := by
    unfold addTextBegin
    rw [if_neg (by simpa using ht)]
  constructor
  · rw [hbegin]
    unfold getTextSync beginZip
    rw [if_pos (by exact amapHas_amapSet _ _ _), amapGet_amapSet]
  · rw [hbegin]
    have hend : (addTextEnd g now (beginZip cc key t) key t).1 =
        { beginZip cc key t with
          zipBuffer := amapDelete (beginZip cc key t).zipBuffer key,
          zipQueue := amapDelete (beginZip cc key t).zipQueue key,
          cache := Cache.add now (beginZip cc key t).cache key
            (Val.buf (g t)) } := by
      unfold addTextEnd
      rw [if_neg (by simpa using ht)]
    rw [hend]
    unfold getTextSync
    rw [if_neg (by
      simp only
      rw [amapHas_amapDelete]
      simp)]
    have hcont : Cache.contains (Cache.add now (beginZip cc key t).cache key
        (Val.buf (g t))) key false = true := by
      rw [contains_eq_mapHas]
      unfold Cache.add Cache.schedulePrune
      simp only [isValue, if_pos]
      exact mapHas_mapSet _ _
    have hget : (Cache.get (Cache.add now (beginZip cc key t).cache key
        (Val.buf (g t))) key false).1 = some (Val.buf (g t)) := by
      unfold Cache.get
      rw [if_pos (by rw [← contains_eq_mapHas _ _ false]; exact hcont)]
      have hmg : mapGet (Cache.add now (beginZip cc key t).cache key
          (Val.buf (g t))).items key =
          some ⟨key, now, Val.buf (g t),
            (if (beginZip cc key t).cache.canMeasureSize then
              if byteSize (Val.buf (g t)) == -1 then (false, (0 : Int))
              else (true, byteSize (Val.buf (g t)))
            else ((beginZip cc key t).cache.canMeasureSize, (0 : Int))).2⟩ := by
        unfold Cache.add Cache.schedulePrune
        simp only [isValue, if_pos]
        exact mapGet_mapSet _ _
      rw [hmg]
    unfold getZipStep
    rw [if_pos hcont, hget]
    simp [asBuf, hu]

def gW : String → List Nat := fun s => s.toList.map Char.toNat

def uW : List Nat → String := fun l => String.mk (l.map Char.ofNat)

theorem c7_witness :
    ("hello" ≠ "" ∧ uW (gW "hello") = "hello") ∧
    (getTextSync uW (addTextBegin ⟨Cache.mk0 {}, none, [], []⟩ "k" "hello") "k"
       = some (some "hello") ∧
     getTextSync uW (addTextEnd gW 3
         (addTextBegin ⟨Cache.mk0 {}, none, [], []⟩ "k" "hello") "k"
         "hello").1 "k" = some (some "hello")) :=
  ⟨⟨by decide, by decide⟩,
   c7_addText_getText_roundtrip gW uW ⟨Cache.mk0 {}, none, [], []⟩ "k" "hello"
     3 (by decide) (by decide)⟩

/-! ## Claim C8 -/

/-- C8 counterexample: when the underlying cache already holds an
entry for the key (left by an earlier completed `addText`), a
`getZip` call issued while a new compression for that key is in
flight does NOT register in the queue: `getZip` checks
`contains(key)` first and resolves immediately with the stale stored
buffer, which differs from the buffer the in-flight compression will
produce. -/
theorem c8_counterexample :
    amapHas (addTextBegin
      (addTextEnd gW 0 (addTextBegin ⟨Cache.mk0 {}, none, [], []⟩ "k" "a")
        "k" "a").1 "k" "b").zipQueue "k" = true ∧
    (getZipStep (addTextBegin
      (addTextEnd gW 0 (addTextBegin ⟨Cache.mk0 {}, none, [], []⟩ "k" "a")
        "k" "a").1 "k" "b") "k" 7).2.1 =
      GetZipOutcome.resolved (some (Val.buf (gW "a"))) ∧
    (getZipStep (addTextBegin
      (addTextEnd gW 0 (addTextBegin ⟨Cache.mk0 {}, none, [], []⟩ "k" "a")
        "k" "a").1 "k" "b") "k" 7).1.zipQueue =
      (addTextBegin
        (addTextEnd gW 0 (addTextBegin ⟨Cache.mk0 {}, none, [], []⟩ "k" "a")
          "k" "a").1 "k" "b").zipQueue ∧
    gW "a" ≠ gW "b" := by
  decide

/-- Registering `getZip` continuations while a compression is in
flight and the store has no entry for the key: each call queues, the
cache and staging buffer are untouched, the queue for the key grows
in registration order, and no compression is performed. -/
theorem registerAll_spec (key : String) :
    ∀ (ids : List Nat) (cc : CompressCache) (acc : List Nat),
      mapHas cc.cache.items key = false →
      amapGet cc.zipQueue key = some acc →
      (registerAll key cc ids).2.1 = ids.map (fun _ => GetZipOutcome.queued) ∧
      (registerAll key cc ids).1.cache = cc.cache ∧
      (registerAll key cc ids).1.zipBuffer = cc.zipBuffer ∧
      amapGet (registerAll key cc ids).1.zipQueue key = some (acc ++ ids) ∧
      (registerAll key cc ids).2.2 = 0 := by
  intro ids
  induction ids with
  | nil =>
    intro cc acc h1 h2
    exact ⟨rfl, rfl, rfl, by simpa using h2, rfl⟩
  | cons cid rest ih =>
    intro cc acc h1 h2
    have hcont : Cache.contains cc.cache key false = false := by
      rw [contains_eq_mapHas]
      exact h1
    have hqh : amapHas cc.zipQueue key = true := by
      rw [amapHas_eq_isSome, h2]
      rfl
    have hstep : getZipStep cc key cid =
        ({ cc with zipQueue := amapSet cc.zipQueue key (acc ++ [cid]) },
         GetZipOutcome.queued, 0) := by
      unfold getZipStep
      rw [if_neg (by simp [hcont]), if_pos hqh, h2]
      rfl
    obtain ⟨ha, hb, hc, hd, he⟩ :=
      ih { cc with zipQueue := amapSet cc.zipQueue key (acc ++ [cid]) }
        (acc ++ [cid]) h1 (amapGet_amapSet _ _ _)
    simp only [registerAll, hstep]
    refine ⟨by simp [ha], hb, hc, ?_, by simpa using he⟩
    rw [hd]
    simp

/-- C8 amended: provided the underlying cache holds no entry for the
key, every `getZip` call issued while the compression started by
`addText(key, t)` is in flight registers its continuation in the
per-key queue (performing no compression itself); when the
compression completes, the queued continuations all resolve with the
identical compressed buffer `g t`, strictly in registration order,
and the compression primitive runs exactly once for the `addText`
call. -/
theorem c8_inflight_queue_dedup (g : String → List Nat) (now : Int)
    (cc : CompressCache) (key t : String) (ids : List Nat)
    (ht : t ≠ "") (hfresh : mapHas cc.cache.items key = false) :
    (registerAll key (addTextBegin cc key t) ids).2.1 =
      ids.map (fun _ => GetZipOutcome.queued) ∧
    (registerAll key (addTextBegin cc key t) ids).2.2 = 0 ∧
    (addTextEnd g now (registerAll key (addTextBegin cc key t) ids).1 key
       t).2.1 = ids.map (fun cid => (cid, g t)) ∧
    (addTextEnd g now (registerAll key (addTextBegin cc key t) ids).1 key
       t).2.2 = 1 := by
  have hbegin : addTextBegin cc key t = beginZip cc key t := by
    unfold addTextBegin
    rw [if_neg (by simpa using ht)]
  rw [hbegin]
  have h1 : mapHas (beginZip cc key t).cache.items key = false := hfresh
  have h2 : amapGet (beginZip cc key t).zipQueue key = some [] :=
    amapGet_amapSet _ _ _
  obtain ⟨ha, hb, hc, hd, he⟩ :=
    registerAll_spec key ids (beginZip cc key t) [] h1 h2
  refine ⟨ha, he, ?_, ?_⟩
  · unfold addTextEnd
    rw [if_neg (by simpa using ht)]
    simp only
    rw [hd]
    simp
  · unfold addTextEnd
    rw [if_neg (by simpa using ht)]

theorem c8_witness :
    ("ab" ≠ "" ∧
     mapHas (⟨Cache.mk0 {}, none, [], []⟩ : CompressCache).cache.items "k"
       = false) ∧
    ((registerAll "k"
        (addTextBegin ⟨Cache.mk0 {}, none, [], []⟩ "k" "ab") [5, 6, 7]).2.1 =
       [GetZipOutcome.queued, GetZipOutcome.queued, GetZipOutcome.queued] ∧
     (registerAll "k"
        (addTextBegin ⟨Cache.mk0 {}, none, [], []⟩ "k" "ab") [5, 6, 7]).2.2 = 0 ∧
     (addTextEnd gW 9 (registerAll "k"
        (addTextBegin ⟨Cache.mk0 {}, none, [], []⟩ "k" "ab") [5, 6, 7]).1 "k"
        "ab").2.1 = [(5, gW "ab"), (6, gW "ab"), (7, gW "ab")] ∧
     (addTextEnd gW 9 (registerAll "k"
        (addTextBegin ⟨Cache.mk0 {}, none, [], []⟩ "k" "ab") [5, 6, 7]).1 "k"
        "ab").2.2 = 1) :=
  ⟨⟨by decide, by decide⟩,
   c8_inflight_queue_dedup gW 9 ⟨Cache.mk0 {}, none, [], []⟩ "k" "ab" [5, 6, 7]
     (by decide) (by decide)⟩

end NodeTools

